import Mathlib

/-
Verification of the transaction reconciliation engine of this repository
(`streamlit_app.py`).

Shallow embedding conventions:
- A pandas cell of the `amount` column after `pd.to_numeric(..., errors='coerce')`
  is either a finite number or `NaN`; we model it as `Option ℚ` where `none`
  stands for `NaN` (the per-row "unparseable" sentinel). All float comparisons
  involving `NaN` are false, which the `Option` matches below reproduce.
- Exact decimal values are modelled by rationals. IEEE binary rounding and the
  signed zero are outside the model (the rational `0` plays the role of `+0.0`):
  with a positive-zero denominator and a positive numerator, numpy division
  yields `+inf`, so the comparison `diff / 0 < 0.05` evaluates to false without
  raising; the explicit `a = 0` branch in `fuzzyTest` encodes exactly that.
- A `Record` is one dataframe row: the engine reads only its `amount` field and
  otherwise carries the row around verbatim, so the remaining row payload is
  abstracted by an identifier `id`.
-/

/-- A transaction record: the parsed `amount` (`none` = NaN, the unparseable
sentinel) plus an opaque identifier standing for the rest of the row. -/
structure Record where
  amount : Option ℚ
  id : ℕ
deriving DecidableEq

/-- An entry of `results['matched']`: `{'opera': ..., 'pos': ..., 'amount': opera_row['amount']}`. -/
structure MatchPair where
  opera : Record
  pos : Record
  amount : Option ℚ
deriving DecidableEq

/-- An entry of `results['amount_mismatch']`:
`{'opera': ..., 'pos': ..., 'difference': difference}`. -/
structure MismatchPair where
  opera : Record
  pos : Record
  difference : ℚ
deriving DecidableEq

/-- The `results` dictionary of `reconcile_transactions`. -/
structure ReconResult where
  matched : List MatchPair
  amount_mismatch : List MismatchPair
  unmatched_opera : List Record
  unmatched_pos : List Record
deriving DecidableEq

/-- `abs(opera_row['amount'] - pos_row['amount']) < 0.01` with float-NaN
semantics: any comparison against NaN is false. -/
def exactTest (x y : Option ℚ) : Bool :=
  match x, y with
  | some a, some b => |a - b| < 1/100
  | _, _ => false

/-- `difference > 0 and difference/opera_row['amount'] < 0.05` in the
all-numeric-frame regime, where `iterrows` yields numpy float64 scalars: NaN
comparisons are false, and when the denominator is (positive) zero the
quotient is `+inf` (numpy emits a warning, not an exception), so the `< 0.05`
comparison is false. When pandas instead boxes the row values as Python
floats (any non-numeric column present), the same division by zero raises;
that raising regime is modelled separately by `fuzzyTestE` below. -/
def fuzzyTest (x y : Option ℚ) : Bool :=
  match x, y with
  | some a, some b => 0 < |a - b| ∧ (if a = 0 then False else |a - b| / a < 1/20)
  | _, _ => false

/-- The pandas elementwise `==` used (negated) by the removal filters
`opera_unmatched['amount'] != value`: NaN is equal to nothing, itself included. -/
def amountEq (x y : Option ℚ) : Bool :=
  match x, y with
  | some a, some b => a = b
  | _, _ => false

/-- `difference = abs(opera_row['amount'] - pos_row['amount'])`, only ever
read when both operands are numbers. -/
def diffVal (x y : Option ℚ) : ℚ :=
  match x, y with
  | some a, some b => |a - b|
  | _, _ => 0

/-- The inner exact-match scan: first `pos_row` of `pos_df` (in order) whose
amount is within 0.01 of `a`'s; the loop `break`s at the first hit. -/
def findExact (B : List Record) (a : Record) : Option Record :=
  B.find? (fun b => exactTest a.amount b.amount)

/-- The fuzzy pass for one `a`: every `pos_row` of the full `pos_df`
satisfying the 5% relative-difference test contributes one mismatch entry. -/
def fuzzyMatches (B : List Record) (a : Record) : List MismatchPair :=
  (B.filter (fun b => fuzzyTest a.amount b.amount)).map
    (fun b => ⟨a, b, diffVal a.amount b.amount⟩)

/-- One iteration of the outer `for _, opera_row in opera_df.iterrows()` loop:
on an exact match, append the pair and shrink both working sets by amount
value; otherwise run the fuzzy pass over the full `pos_df`. -/
def stepA (B : List Record) (s : ReconResult) (a : Record) : ReconResult :=
  match findExact B a with
  | some b =>
    { s with
      matched := s.matched ++ [⟨a, b, a.amount⟩],
      unmatched_opera := s.unmatched_opera.filter (fun r => !(amountEq r.amount a.amount)),
      unmatched_pos := s.unmatched_pos.filter (fun r => !(amountEq r.amount b.amount)) }
  | none =>
    { s with amount_mismatch := s.amount_mismatch ++ fuzzyMatches B a }

/-- `reconcile_transactions` on already-normalized inputs: fold the outer loop
over `opera_df` starting from empty result lists and full working copies
`opera_unmatched = opera_df.copy()`, `pos_unmatched = pos_df.copy()`. -/
def reconcile_transactions (A B : List Record) : ReconResult :=
  A.foldl (stepA B) ⟨[], [], A, B⟩

/-- The scenario record A1 of claims C1: amount 100.00. -/
def recA100 : Record := ⟨some 100, 1⟩

/-- The scenario record B1 of claims C1: amount 104.00. -/
def recB104 : Record := ⟨some 104, 2⟩

/-- Record A1 of the duplicate-amount scenario: amount 50. -/
def recA50x : Record := ⟨some 50, 1⟩

/-- Record A2 of the duplicate-amount scenario: amount 50. -/
def recA50y : Record := ⟨some 50, 2⟩

/-- Record B1 of the duplicate-amount scenario: amount 50. -/
def recB50 : Record := ⟨some 50, 3⟩

/-- C1 (counterexample): on A = [amount 100], B = [amount 104] the claim fails:
the mismatch pair is produced as claimed, but the unmatched lists are not
empty — a fuzzy match never shrinks the working sets, so both records stay
unmatched. -/
theorem c1_unmatched_not_empty :
    ¬((reconcile_transactions [recA100] [recB104]).amount_mismatch =
        [⟨recA100, recB104, 4⟩]
      ∧ (reconcile_transactions [recA100] [recB104]).matched = []
      ∧ (reconcile_transactions [recA100] [recB104]).unmatched_opera = []
      ∧ (reconcile_transactions [recA100] [recB104]).unmatched_pos = []) := by
  intro h
  have h2 := h.2.2.1
  norm_num [reconcile_transactions, stepA, findExact, fuzzyMatches, exactTest, fuzzyTest,
    diffVal, recA100, recB104, List.find?, List.filter, List.foldl] at h2

/-- C1 (amended): on A = [amount 100], B = [amount 104] the engine emits
exactly one mismatch pair (difference 4) and no matched pair, and the
unmatched lists hold exactly the two input records (the working sets are only
filtered on exact matches, never on fuzzy ones). -/
theorem c1_amended :
    (reconcile_transactions [recA100] [recB104]).amount_mismatch =
        [⟨recA100, recB104, 4⟩]
      ∧ (reconcile_transactions [recA100] [recB104]).matched = []
      ∧ (reconcile_transactions [recA100] [recB104]).unmatched_opera = [recA100]
      ∧ (reconcile_transactions [recA100] [recB104]).unmatched_pos = [recB104] := by
  norm_num [reconcile_transactions, stepA, findExact, fuzzyMatches, exactTest, fuzzyTest,
    diffVal, recA100, recB104, List.find?, List.filter, List.foldl]

/-- C6 (counterexample): on A = [50 (id A1), 50 (id A2)], B = [50 (id B1)] the
engine emits two MatchPairs, not one: the exact scan runs over the full
`pos_df` for every `a`, so B1 is matched again by A2 even though the working
sets were already emptied. -/
theorem c6_two_match_pairs :
    ¬((reconcile_transactions [recA50x, recA50y] [recB50]).matched.length = 1
      ∧ (reconcile_transactions [recA50x, recA50y] [recB50]).unmatched_opera = [recA50y]
      ∧ (reconcile_transactions [recA50x, recA50y] [recB50]).unmatched_pos = []) := by
  intro h
  have h1 := h.1
  norm_num [reconcile_transactions, stepA, findExact, fuzzyMatches, exactTest, fuzzyTest,
    amountEq, diffVal, recA50x, recA50y, recB50, List.find?, List.filter, List.foldl] at h1

/-- C6 (amended): on A = [50 (id A1), 50 (id A2)], B = [50 (id B1)] the engine
emits two MatchPairs (A1–B1 and A2–B1), no mismatch, and both unmatched lists
are empty: value-based removal deletes A2 together with A1, and the second
iteration still finds B1 in the full `pos_df`. -/
theorem c6_amended :
    (reconcile_transactions [recA50x, recA50y] [recB50]).matched =
        [⟨recA50x, recB50, some 50⟩, ⟨recA50y, recB50, some 50⟩]
      ∧ (reconcile_transactions [recA50x, recA50y] [recB50]).amount_mismatch = []
      ∧ (reconcile_transactions [recA50x, recA50y] [recB50]).unmatched_opera = []
      ∧ (reconcile_transactions [recA50x, recA50y] [recB50]).unmatched_pos = [] := by
  norm_num [reconcile_transactions, stepA, findExact, fuzzyMatches, exactTest, fuzzyTest,
    amountEq, diffVal, recA50x, recA50y, recB50, List.find?, List.filter, List.foldl]

/-- The matched pairs contributed by the outer loop over a list of `a`s:
one pair per `a` that finds an exact partner in the full `pos_df`. -/
def matchedOut (B : List Record) : List Record → List MatchPair
  | [] => []
  | a :: l =>
    (match findExact B a with
     | some b => [⟨a, b, a.amount⟩]
     | none => []) ++ matchedOut B l

/-- The mismatch pairs contributed by the outer loop: the fuzzy pass output of
every `a` that found no exact partner. -/
def mismatchOut (B : List Record) : List Record → List MismatchPair
  | [] => []
  | a :: l =>
    (match findExact B a with
     | some _ => []
     | none => fuzzyMatches B a) ++ mismatchOut B l

/-- The evolution of the two working sets `(opera_unmatched, pos_unmatched)`
alone: on an exact match both are filtered by amount value, otherwise they are
left untouched. -/
def remStep (B : List Record) (p : List Record × List Record) (a : Record) :
    List Record × List Record :=
  match findExact B a with
  | some b =>
    (p.1.filter (fun r => !(amountEq r.amount a.amount)),
     p.2.filter (fun r => !(amountEq r.amount b.amount)))
  | none => p

theorem foldl_stepA_matched (B : List Record) (l : List Record) (s : ReconResult) :
    (l.foldl (stepA B) s).matched = s.matched ++ matchedOut B l := by
  induction l generalizing s with
  | nil => simp [matchedOut]
  | cons a l ih =>
    simp only [List.foldl_cons, matchedOut]
    rw [ih]
    cases h : findExact B a <;> simp [stepA, h]

theorem foldl_stepA_mismatch (B : List Record) (l : List Record) (s : ReconResult) :
    (l.foldl (stepA B) s).amount_mismatch = s.amount_mismatch ++ mismatchOut B l := by
  induction l generalizing s with
  | nil => simp [mismatchOut]
  | cons a l ih =>
    simp only [List.foldl_cons, mismatchOut]
    rw [ih]
    cases h : findExact B a <;> simp [stepA, h]

theorem foldl_stepA_unmatched (B : List Record) (l : List Record) (s : ReconResult) :
    ((l.foldl (stepA B) s).unmatched_opera, (l.foldl (stepA B) s).unmatched_pos)
      = l.foldl (remStep B) (s.unmatched_opera, s.unmatched_pos) := by
  induction l generalizing s with
  | nil => simp
  | cons a l ih =>
    simp only [List.foldl_cons]
    rw [ih]
    cases h : findExact B a <;> simp [stepA, remStep, h]

theorem mem_matchedOut {B l : List Record} {p : MatchPair} :
    p ∈ matchedOut B l
      ↔ ∃ a ∈ l, ∃ b, findExact B a = some b ∧ p = ⟨a, b, a.amount⟩ := by
  induction l with
  | nil => simp [matchedOut]
  | cons a l ih =>
    cases h : findExact B a with
    | none => simp [matchedOut, h, ih]
    | some b =>
      simp only [matchedOut, h, List.singleton_append, List.mem_cons, ih]
      aesop

theorem mem_mismatchOut {B l : List Record} {m : MismatchPair} :
    m ∈ mismatchOut B l
      ↔ ∃ a ∈ l, findExact B a = none ∧ m ∈ fuzzyMatches B a := by
  induction l with
  | nil => simp [mismatchOut]
  | cons a l ih =>
    cases h : findExact B a with
    | none =>
      simp only [mismatchOut, h, List.mem_append, ih]
      aesop
    | some b => simp [mismatchOut, h, ih]

theorem mem_fuzzyMatches {B : List Record} {a : Record} {m : MismatchPair} :
    m ∈ fuzzyMatches B a
      ↔ ∃ b ∈ B, fuzzyTest a.amount b.amount = true
          ∧ m = ⟨a, b, diffVal a.amount b.amount⟩ := by
  simp only [fuzzyMatches, List.mem_map, List.mem_filter]
  aesop

theorem exactTest_some {x y : Option ℚ} (h : exactTest x y = true) :
    (∃ α, x = some α) ∧ ∃ β, y = some β := by
  cases x <;> cases y <;> simp_all [exactTest]

theorem fuzzyTest_some {x y : Option ℚ} (h : fuzzyTest x y = true) :
    (∃ α, x = some α) ∧ ∃ β, y = some β := by
  cases x <;> cases y <;> simp_all [fuzzyTest]

theorem amountEq_none_left (y : Option ℚ) : amountEq none y = false := by
  cases y <;> rfl

theorem reconcile_matched (A B : List Record) :
    (reconcile_transactions A B).matched = matchedOut B A := by
  simpa using foldl_stepA_matched B A ⟨[], [], A, B⟩

theorem reconcile_mismatch (A B : List Record) :
    (reconcile_transactions A B).amount_mismatch = mismatchOut B A := by
  simpa using foldl_stepA_mismatch B A ⟨[], [], A, B⟩

theorem reconcile_unmatched (A B : List Record) :
    ((reconcile_transactions A B).unmatched_opera,
      (reconcile_transactions A B).unmatched_pos) = A.foldl (remStep B) (A, B) := by
  simpa using foldl_stepA_unmatched B A ⟨[], [], A, B⟩

/-- Records whose amount is the NaN sentinel are never removed from either
working set: the pandas filter `amount != value` keeps every NaN row. -/
theorem nan_survives_remStep_foldl (B l : List Record) (p : List Record × List Record)
    (r : Record) (hr : r.amount = none) :
    (r ∈ p.1 → r ∈ (l.foldl (remStep B) p).1)
    ∧ (r ∈ p.2 → r ∈ (l.foldl (remStep B) p).2) := by
  induction l generalizing p with
  | nil => exact ⟨id, id⟩
  | cons a l ih =>
    constructor <;> intro hmem <;> simp only [List.foldl_cons]
    · apply (ih _).1
      cases hfe : findExact B a with
      | none => simpa [remStep, hfe]
      | some b => simp [remStep, hfe, List.mem_filter, hmem, hr, amountEq_none_left]
    · apply (ih _).2
      cases hfe : findExact B a with
      | none => simpa [remStep, hfe]
      | some b => simp [remStep, hfe, List.mem_filter, hmem, hr, amountEq_none_left]

/-- C2: a pair emitted as an exact MatchPair is never also emitted as a
MismatchPair in the same run (the fuzzy pass only runs for an `a` whose exact
scan failed), and every pair whose relative amount difference (difference
divided by the source-A amount, as the code computes it) lies strictly between
0 and 0.05, where `a` found no exact match, appears in `amount_mismatch`. -/
theorem c2_exact_fuzzy_exclusion (A B : List Record) (p : MatchPair) (d : ℚ)
    (a b : Record) (α β : ℚ) :
    (p ∈ (reconcile_transactions A B).matched →
      (⟨p.opera, p.pos, d⟩ : MismatchPair) ∉ (reconcile_transactions A B).amount_mismatch)
    ∧ (a ∈ A → b ∈ B → a.amount = some α → b.amount = some β →
        findExact B a = none →
        0 < |α - β| / α → |α - β| / α < 1/20 →
        (⟨a, b, |α - β|⟩ : MismatchPair) ∈ (reconcile_transactions A B).amount_mismatch) := by
  constructor
  · intro hp hm
    rw [reconcile_matched, mem_matchedOut] at hp
    obtain ⟨a1, ha1, b1, hfind, hpe⟩ := hp
    rw [reconcile_mismatch, mem_mismatchOut] at hm
    obtain ⟨a2, ha2, hnone, hfz⟩ := hm
    rw [mem_fuzzyMatches] at hfz
    obtain ⟨b2, hb2, htest, hme⟩ := hfz
    have hopera : a2 = a1 := by
      have h1 : (⟨p.opera, p.pos, d⟩ : MismatchPair).opera = a2 := by rw [hme]
      have h2 : p.opera = a1 := by rw [hpe]
      simpa [h2] using h1.symm
    rw [hopera, hfind] at hnone
    exact Option.noConfusion hnone
  · intro haA hbB ha hb hnone hq1 hq2
    have hα : α ≠ 0 := by
      intro h0
      rw [h0, div_zero] at hq1
      exact lt_irrefl 0 hq1
    have hd : 0 < |α - β| := by
      rcases eq_or_lt_of_le (abs_nonneg (α - β)) with h | h
      · rw [← h, zero_div] at hq1
        exact absurd hq1 (lt_irrefl 0)
      · exact h
    have hft : fuzzyTest a.amount b.amount = true := by
      rw [ha, hb]
      rw [one_div] at hq2
      simp [fuzzyTest, hd, hα, hq2]
    rw [reconcile_mismatch, mem_mismatchOut]
    exact ⟨a, haA, hnone, mem_fuzzyMatches.mpr ⟨b, hbB, hft, by simp [diffVal, ha, hb]⟩⟩

/-- C2 witness: on A = [amount 100], B = [amount 104] the relative difference
is 4/100 = 0.04 ∈ (0, 0.05) and the exact scan fails, so the pair appears in
`amount_mismatch`. -/
theorem c2_exact_fuzzy_exclusion_witness :
    (⟨recA100, recB104, |(100 : ℚ) - 104|⟩ : MismatchPair)
      ∈ (reconcile_transactions [recA100] [recB104]).amount_mismatch := by
  have hnone : findExact [recB104] recA100 = none := by
    have het : exactTest recA100.amount recB104.amount = false := by
      norm_num [exactTest, recA100, recB104]
    simp [findExact, List.find?, het]
  refine (c2_exact_fuzzy_exclusion [recA100] [recB104] ⟨recA100, recB104, none⟩ 0
    recA100 recB104 100 104).2 ?_ ?_ rfl rfl hnone ?_ ?_
  · simp
  · simp
  · norm_num
  · norm_num

/-- C3: with single-record inputs A = [a], B = [b] (both amounts parsed), the
pair is matched exactly if and only if the amounts differ by strictly less
than 0.01. -/
theorem c3_exact_threshold (a b : Record) (α β : ℚ)
    (ha : a.amount = some α) (hb : b.amount = some β) :
    (⟨a, b, a.amount⟩ : MatchPair) ∈ (reconcile_transactions [a] [b]).matched
      ↔ |α - β| < 1/100 := by
  rw [reconcile_matched]
  rw [show (1 : ℚ)/100 = (100 : ℚ)⁻¹ from one_div 100]
  by_cases h : |α - β| < (100 : ℚ)⁻¹
  · have het : exactTest a.amount b.amount = true := by
      rw [ha, hb]; simp [exactTest, one_div, h]
    simp [matchedOut, findExact, List.find?, het, h]
  · have het : exactTest a.amount b.amount = false := by
      rw [ha, hb]; simp [exactTest, one_div, h]
    simp [matchedOut, findExact, List.find?, het, h]

/-- C3 witness: two records of amount 50 are matched (difference 0 < 0.01). -/
theorem c3_exact_threshold_witness :
    (⟨recA50x, recB50, recA50x.amount⟩ : MatchPair)
      ∈ (reconcile_transactions [recA50x] [recB50]).matched :=
  (c3_exact_threshold recA50x recB50 50 50 rfl rfl).mpr (by norm_num)

theorem findExact_test {B : List Record} {a b : Record} (h : findExact B a = some b) :
    exactTest a.amount b.amount = true := by
  unfold findExact at h
  have h2 := List.find?_some h
  simpa using h2

theorem findExact_mem {B : List Record} {a b : Record} (h : findExact B a = some b) :
    b ∈ B := by
  unfold findExact at h
  exact List.mem_of_find?_eq_some h

/-- C4: on an exact match of `a` with `b`, the step removes from the remaining
source-A working set every record whose amount equals `a`'s (by value, not by
identity), symmetrically for source B, and the result's unmatched lists are
exactly the working sets produced by folding these removals over all of
source A. -/
theorem c4_value_removal (A B : List Record) (s : ReconResult) (a b r : Record)
    (h : findExact B a = some b) :
    (r ∈ (stepA B s a).unmatched_opera ↔
        r ∈ s.unmatched_opera ∧ amountEq r.amount a.amount = false)
    ∧ (r ∈ (stepA B s a).unmatched_pos ↔
        r ∈ s.unmatched_pos ∧ amountEq r.amount b.amount = false)
    ∧ (reconcile_transactions A B).unmatched_opera = (A.foldl (remStep B) (A, B)).1
    ∧ (reconcile_transactions A B).unmatched_pos = (A.foldl (remStep B) (A, B)).2 := by
  refine ⟨?_, ?_, ?_, ?_⟩
  · simp [stepA, h, List.mem_filter]
  · simp [stepA, h, List.mem_filter]
  · simpa using congrArg Prod.fst (reconcile_unmatched A B)
  · simpa using congrArg Prod.snd (reconcile_unmatched A B)

/-- C4 witness: on the duplicate-amount input, the exact match of A1 with B1
removes A2 from the working set as well (same amount 50), and the final
unmatched lists coincide with the folded working sets. -/
theorem c4_value_removal_witness :
    (recA50y ∈ (stepA [recB50] ⟨[], [], [recA50x, recA50y], [recB50]⟩ recA50x).unmatched_opera ↔
        recA50y ∈ [recA50x, recA50y] ∧ amountEq recA50y.amount recA50x.amount = false)
    ∧ (recB50 ∈ (stepA [recB50] ⟨[], [], [recA50x, recA50y], [recB50]⟩ recA50x).unmatched_pos ↔
        recB50 ∈ [recB50] ∧ amountEq recB50.amount recB50.amount = false)
    ∧ (reconcile_transactions [recA50x, recA50y] [recB50]).unmatched_opera =
        ([recA50x, recA50y].foldl (remStep [recB50]) ([recA50x, recA50y], [recB50])).1
    ∧ (reconcile_transactions [recA50x, recA50y] [recB50]).unmatched_pos =
        ([recA50x, recA50y].foldl (remStep [recB50]) ([recA50x, recA50y], [recB50])).2 := by
  have h : findExact [recB50] recA50x = some recB50 := by
    have het : exactTest recA50x.amount recB50.amount = true := by
      norm_num [exactTest, recA50x, recB50]
    simp [findExact, List.find?, het]
  exact c4_value_removal [recA50x, recA50y] [recB50]
    ⟨[], [], [recA50x, recA50y], [recB50]⟩ recA50x recB50 recA50y h
    |>.imp id (fun hrest => hrest.imp_left (fun _ => by
      have h2 := (c4_value_removal [recA50x, recA50y] [recB50]
        ⟨[], [], [recA50x, recA50y], [recB50]⟩ recA50x recB50 recB50 h).2.1
      exact h2))

/-- C5: a record whose amount failed numeric parsing (the NaN sentinel) is
never the source-A member of a matched pair nor of a mismatch pair, and always
survives into `unmatched_opera`; symmetrically for a sentinel record of
source B. The embedding is a total function, so no error is raised. -/
theorem c5_sentinel_routing (A B : List Record) (a b : Record)
    (haA : a ∈ A) (hna : a.amount = none) (hbB : b ∈ B) (hnb : b.amount = none) :
    (a ∉ (reconcile_transactions A B).matched.map (fun p => p.opera)
      ∧ a ∉ (reconcile_transactions A B).amount_mismatch.map (fun m => m.opera)
      ∧ a ∈ (reconcile_transactions A B).unmatched_opera)
    ∧ (b ∉ (reconcile_transactions A B).matched.map (fun p => p.pos)
      ∧ b ∉ (reconcile_transactions A B).amount_mismatch.map (fun m => m.pos)
      ∧ b ∈ (reconcile_transactions A B).unmatched_pos) := by
  have hmm : ∀ p ∈ (reconcile_transactions A B).matched,
      (∃ α, p.opera.amount = some α) ∧ ∃ β, p.pos.amount = some β := by
    intro p hp
    rw [reconcile_matched, mem_matchedOut] at hp
    obtain ⟨a1, _, b1, hfind, hpe⟩ := hp
    have het : exactTest a1.amount b1.amount = true :=
      findExact_test hfind
    have := exactTest_some het
    rw [hpe]
    exact this
  have hms : ∀ m ∈ (reconcile_transactions A B).amount_mismatch,
      (∃ α, m.opera.amount = some α) ∧ ∃ β, m.pos.amount = some β := by
    intro m hm
    rw [reconcile_mismatch, mem_mismatchOut] at hm
    obtain ⟨a1, _, _, hfz⟩ := hm
    rw [mem_fuzzyMatches] at hfz
    obtain ⟨b1, hb1, htest, hme⟩ := hfz
    have := fuzzyTest_some htest
    rw [hme]
    exact this
  have hrem := nan_survives_remStep_foldl B A (A, B)
  refine ⟨⟨?_, ?_, ?_⟩, ?_, ?_, ?_⟩
  · intro hmem
    obtain ⟨p, hp, hpe⟩ := List.mem_map.mp hmem
    obtain ⟨⟨α, hps⟩, -⟩ := hmm p hp
    rw [hpe, hna] at hps
    exact Option.noConfusion hps
  · intro hmem
    obtain ⟨m, hm, hme⟩ := List.mem_map.mp hmem
    obtain ⟨⟨α, hms1⟩, -⟩ := hms m hm
    rw [hme, hna] at hms1
    exact Option.noConfusion hms1
  · have h1 := congrArg Prod.fst (reconcile_unmatched A B)
    simp only at h1
    rw [h1]
    exact (nan_survives_remStep_foldl B A (A, B) a hna).1 haA
  · intro hmem
    obtain ⟨p, hp, hpe⟩ := List.mem_map.mp hmem
    obtain ⟨-, β, hps⟩ := hmm p hp
    rw [hpe, hnb] at hps
    exact Option.noConfusion hps
  · intro hmem
    obtain ⟨m, hm, hme⟩ := List.mem_map.mp hmem
    obtain ⟨-, β, hms1⟩ := hms m hm
    rw [hme, hnb] at hms1
    exact Option.noConfusion hms1
  · have h2 := congrArg Prod.snd (reconcile_unmatched A B)
    simp only at h2
    rw [h2]
    exact (nan_survives_remStep_foldl B A (A, B) b hnb).2 hbB

/-- A source-A record whose amount failed parsing, for the C5 witness. -/
def recNanA : Record := ⟨none, 7⟩

/-- A source-B record whose amount failed parsing, for the C5 witness. -/
def recNanB : Record := ⟨none, 8⟩

/-- C5 witness: a NaN-amount record on each side is routed to the unmatched
lists and appears in neither pair list. -/
theorem c5_sentinel_routing_witness :
    (recNanA ∉ (reconcile_transactions [recNanA] [recNanB]).matched.map (fun p => p.opera)
      ∧ recNanA ∉ (reconcile_transactions [recNanA] [recNanB]).amount_mismatch.map
          (fun m => m.opera)
      ∧ recNanA ∈ (reconcile_transactions [recNanA] [recNanB]).unmatched_opera)
    ∧ (recNanB ∉ (reconcile_transactions [recNanA] [recNanB]).matched.map (fun p => p.pos)
      ∧ recNanB ∉ (reconcile_transactions [recNanA] [recNanB]).amount_mismatch.map
          (fun m => m.pos)
      ∧ recNanB ∈ (reconcile_transactions [recNanA] [recNanB]).unmatched_pos) :=
  c5_sentinel_routing [recNanA] [recNanB] recNanA recNanB (by simp) rfl (by simp) rfl

/-
The fuzzy test `difference > 0 and difference/opera_row['amount'] < 0.05` has
two runtime regimes. When every column of the frame is numeric, `iterrows`
yields rows of numpy float64 scalars: division of a positive difference by
zero produces `+inf` with a RuntimeWarning, no exception, and `inf < 0.05` is
false — that regime is `fuzzyTest` above. When any non-numeric column is
present (the normal case for these exports), pandas boxes the row values as
plain Python floats and `difference/0.0` raises ZeroDivisionError, which
propagates out of `reconcile_transactions` to the caller. `fuzzyTestE` and
the evaluations below model that boxed regime: `Except.error ()` is the
ZeroDivisionError, and the `and` short-circuit means the division only runs
when `difference > 0` held.
-/

/-- The fuzzy test with Python-float division: evaluating
`difference > 0 and difference/a < 0.05` raises (error) when the division by
a zero `a` is actually reached, that is when `difference > 0` held first. -/
def fuzzyTestE (x y : Option ℚ) : Except Unit Bool :=
  match x, y with
  | some a, some b =>
    if 0 < |a - b| then
      (if a = 0 then Except.error () else Except.ok (decide (|a - b| / a < 1/20)))
    else Except.ok false
  | _, _ => Except.ok false

/-- The fuzzy pass for one `a` in the boxed regime: scan `pos_df` in order,
appending a mismatch entry per accepted `b`; a raise aborts the scan. -/
def fuzzyPassE (a : Record) : List Record → Except Unit (List MismatchPair)
  | [] => Except.ok []
  | b :: rest =>
    match fuzzyTestE a.amount b.amount with
    | Except.error u => Except.error u
    | Except.ok true =>
      match fuzzyPassE a rest with
      | Except.error u => Except.error u
      | Except.ok l => Except.ok (⟨a, b, diffVal a.amount b.amount⟩ :: l)
    | Except.ok false => fuzzyPassE a rest

theorem fuzzyPassE_cons (a b : Record) (rest : List Record) :
    fuzzyPassE a (b :: rest)
      = match fuzzyTestE a.amount b.amount with
        | Except.error u => Except.error u
        | Except.ok true =>
          (match fuzzyPassE a rest with
           | Except.error u => Except.error u
           | Except.ok l => Except.ok (⟨a, b, diffVal a.amount b.amount⟩ :: l))
        | Except.ok false => fuzzyPassE a rest := rfl

/-- One outer-loop iteration in the boxed regime. -/
def stepAE (B : List Record) (s : ReconResult) (a : Record) : Except Unit ReconResult :=
  match findExact B a with
  | some b =>
    Except.ok { s with
      matched := s.matched ++ [⟨a, b, a.amount⟩],
      unmatched_opera := s.unmatched_opera.filter (fun r => !(amountEq r.amount a.amount)),
      unmatched_pos := s.unmatched_pos.filter (fun r => !(amountEq r.amount b.amount)) }
  | none =>
    match fuzzyPassE a B with
    | Except.error u => Except.error u
    | Except.ok ms => Except.ok { s with amount_mismatch := s.amount_mismatch ++ ms }

/-- The outer loop in the boxed regime: an uncaught raise aborts the run. -/
def reconcileE_go (B : List Record) (s : ReconResult) : List Record → Except Unit ReconResult
  | [] => Except.ok s
  | a :: rest =>
    match stepAE B s a with
    | Except.error u => Except.error u
    | Except.ok s2 => reconcileE_go B s2 rest

/-- `reconcile_transactions` in the boxed regime. -/
def reconcileE (A B : List Record) : Except Unit ReconResult :=
  reconcileE_go B ⟨[], [], A, B⟩ A

theorem fuzzyTestE_none_right (x : Option ℚ) : fuzzyTestE x none = Except.ok false := by
  cases x <;> rfl

theorem fuzzyTestE_zero_ne (γ : ℚ) (h : γ ≠ 0) :
    fuzzyTestE (some 0) (some γ) = Except.error () := by
  have hd : 0 < |(0 : ℚ) - γ| := by
    rw [zero_sub, abs_neg]
    exact abs_pos.mpr h
  show (if 0 < |(0 : ℚ) - γ| then
      (if (0 : ℚ) = 0 then Except.error ()
       else Except.ok (decide (|(0 : ℚ) - γ| / 0 < 1/20)))
    else Except.ok false) = Except.error ()
  rw [if_pos hd, if_pos rfl]

theorem fuzzyTestE_zero_zero : fuzzyTestE (some 0) (some 0) = Except.ok false := by
  show (if 0 < |(0 : ℚ) - 0| then
      (if (0 : ℚ) = 0 then Except.error ()
       else Except.ok (decide (|(0 : ℚ) - 0| / 0 < 1/20)))
    else Except.ok false) = Except.ok false
  rw [if_neg (by norm_num)]

/-- With a zero source-A amount, the boxed-regime fuzzy pass raises as soon
as it meets a record whose parsed amount differs from zero. -/
theorem fuzzyPassE_zero_error (a : Record) (h0 : a.amount = some 0) :
    ∀ B : List Record, (∃ b ∈ B, ∃ β : ℚ, b.amount = some β ∧ β ≠ 0) →
      fuzzyPassE a B = Except.error () := by
  intro B
  induction B with
  | nil =>
    rintro ⟨b, hb, -⟩
    exact absurd hb (List.not_mem_nil b)
  | cons c rest ih =>
    rintro ⟨b, hb, β, hβ, hβne⟩
    rw [fuzzyPassE_cons, h0]
    rcases hc : c.amount with - | γ
    · rw [fuzzyTestE_none_right]
      show fuzzyPassE a rest = Except.error ()
      apply ih
      rcases List.mem_cons.mp hb with rfl | hbr
      · rw [hc] at hβ
        exact absurd hβ (by simp)
      · exact ⟨b, hbr, β, hβ, hβne⟩
    · by_cases hγ : γ = 0
      · subst hγ
        rw [fuzzyTestE_zero_zero]
        show fuzzyPassE a rest = Except.error ()
        apply ih
        rcases List.mem_cons.mp hb with rfl | hbr
        · rw [hc] at hβ
          injection hβ with h2
          exact absurd h2.symm hβne
        · exact ⟨b, hbr, β, hβ, hβne⟩
      · rw [fuzzyTestE_zero_ne γ hγ]

/-- A source-A record of amount exactly 0. -/
def recZero : Record := ⟨some 0, 9⟩

/-- C9 (counterexample): a run with A = [amount 0], B = [amount 104] in the
boxed-float regime aborts with the ZeroDivisionError from
`difference/opera_row['amount']`: the error does surface to the caller. -/
theorem c9_division_by_zero_surfaces :
    reconcileE [recZero] [recB104] = Except.error () := by
  have het : exactTest recZero.amount recB104.amount = false := by
    norm_num [exactTest, recZero, recB104]
  have hnone : findExact [recB104] recZero = none := by
    simp [findExact, List.find?, het]
  have ht : fuzzyTestE recZero.amount recB104.amount = Except.error () :=
    fuzzyTestE_zero_ne 104 (by norm_num)
  have hpass : fuzzyPassE recZero [recB104] = Except.error () := by
    rw [fuzzyPassE_cons, ht]
  simp [reconcileE, reconcileE_go, stepAE, hnone, hpass]

/-- C9 (amended): for a zero-amount record `a` with no exact match, the fuzzy
test accepts no record of source B, so no MismatchPair for `a` is ever
emitted; but the division by zero is guarded only by numpy semantics: with
float64 row scalars it yields `+inf` silently (first two conjuncts), while
with boxed Python floats — whenever the frame has any non-numeric column —
the pass raises ZeroDivisionError at the first record whose parsed amount
differs from zero, and the error surfaces (third conjunct). -/
theorem c9_zero_amount_two_regimes (A B : List Record) (a b : Record) (β : ℚ)
    (haA : a ∈ A) (h0 : a.amount = some 0)
    (hnone : findExact B a = none)
    (hbB : b ∈ B) (hβ : b.amount = some β) (hβne : β ≠ 0) :
    (B.any (fun x => fuzzyTest a.amount x.amount) = false
      ∧ a ∉ (reconcile_transactions A B).amount_mismatch.map (fun m => m.opera))
    ∧ fuzzyPassE a B = Except.error () := by
  have hft : ∀ x : Option ℚ, fuzzyTest (some 0) x = false := by
    intro x
    cases x with
    | none => rfl
    | some γ => simp [fuzzyTest]
  refine ⟨⟨?_, ?_⟩, ?_⟩
  · rw [List.any_eq_false]
    intro x _
    rw [h0, hft]
    simp
  · intro hmem
    obtain ⟨m, hm, hme⟩ := List.mem_map.mp hmem
    rw [reconcile_mismatch, mem_mismatchOut] at hm
    obtain ⟨a1, -, -, hfz⟩ := hm
    rw [mem_fuzzyMatches] at hfz
    obtain ⟨b1, hb1, htest, hmeq⟩ := hfz
    have hopera : a1 = a := by
      have h2 : m.opera = a1 := by rw [hmeq]
      rw [← h2, hme]
    rw [hopera, h0, hft] at htest
    exact Bool.noConfusion htest
  · exact fuzzyPassE_zero_error a h0 B ⟨b, hbB, β, hβ, hβne⟩

/-- C9 witness: against B = [amount 104], the zero-amount record produces no
fuzzy hit and no mismatch entry, and the boxed-regime pass raises. -/
theorem c9_zero_amount_two_regimes_witness :
    ([recB104].any (fun x => fuzzyTest recZero.amount x.amount) = false
      ∧ recZero ∉ (reconcile_transactions [recZero] [recB104]).amount_mismatch.map
          (fun m => m.opera))
    ∧ fuzzyPassE recZero [recB104] = Except.error () := by
  have het : exactTest recZero.amount recB104.amount = false := by
    norm_num [exactTest, recZero, recB104]
  have hnone : findExact [recB104] recZero = none := by
    simp [findExact, List.find?, het]
  exact c9_zero_amount_two_regimes [recZero] [recB104] recZero recB104 104
    (by simp) rfl hnone (by simp) rfl (by norm_num)

/-- C10: for a source-A record with strictly negative amount that found no
exact match, every source-B record with any different (parsed) amount is
emitted as a mismatch pair: the signed quotient `difference / a.amount` is
negative, hence always below the 0.05 bound, which therefore restricts
nothing. -/
theorem c10_negative_amount_no_bound (A B : List Record) (a b : Record) (α β : ℚ)
    (haA : a ∈ A) (hα : a.amount = some α) (hneg : α < 0)
    (hnone : findExact B a = none)
    (hbB : b ∈ B) (hβ : b.amount = some β) (hne : β ≠ α) :
    (⟨a, b, |α - β|⟩ : MismatchPair)
      ∈ (reconcile_transactions A B).amount_mismatch := by
  have hd : 0 < |α - β| := abs_pos.mpr (sub_ne_zero.mpr (fun hh => hne hh.symm))
  have hq : |α - β| / α < 1/20 :=
    lt_trans (div_neg_of_pos_of_neg hd hneg) (by norm_num)
  have hft : fuzzyTest a.amount b.amount = true := by
    rw [hα, hβ]
    rw [one_div] at hq
    simp [fuzzyTest, hd, hq, ne_of_lt hneg]
  rw [reconcile_mismatch, mem_mismatchOut]
  exact ⟨a, haA, hnone, mem_fuzzyMatches.mpr ⟨b, hbB, hft, by simp [diffVal, hα, hβ]⟩⟩

/-- A source-A record of amount -100, for the C10 witness. -/
def recNeg100 : Record := ⟨some (-100), 4⟩

/-- C10 witness: the record of amount -100 is paired with the amount-104
record (difference 204, relative quotient -2.04 < 0.05) in `amount_mismatch`,
far outside any 5% window. -/
theorem c10_negative_amount_no_bound_witness :
    (⟨recNeg100, recB104, |(-100 : ℚ) - 104|⟩ : MismatchPair)
      ∈ (reconcile_transactions [recNeg100] [recB104]).amount_mismatch := by
  have hnone : findExact [recB104] recNeg100 = none := by
    have het : exactTest recNeg100.amount recB104.amount = false := by
      norm_num [exactTest, recNeg100, recB104]
    simp [findExact, List.find?, het]
  exact c10_negative_amount_no_bound [recNeg100] [recB104] recNeg100 recB104 (-100) 104
    (by simp) rfl (by norm_num) hnone (by simp) rfl (by norm_num)

/-
Normalization model (`streamlit_app.py` lines 72-77). Raw column names and
cell contents are modelled as lists of Unicode code points (so 97 = letter a,
45 = minus, 46 = dot, 48..57 = digits). A cell of the amount column is either
still raw text, a parsed decimal number `num m e` (value m / 10^e, the pair
kept canonical: no trailing zero digit unless e = 0, mirroring the fact that
a float keeps only the value), or NaN. `astype(str)` of a parsed number is
modelled by `renderDec`, which follows CPython's `str(float)` for exact
decimal values: positional (plain) notation when the value is zero or its
magnitude lies in [1e-4, 1e16), and scientific notation (`2e+16`, `5e-05`)
otherwise — the regime in which the strip-and-reparse of a second
normalization pass mangles the value. IEEE binary rounding and the signed
zero remain outside the model.
-/

/-- `str.lower` per code point (ASCII letters, as pandas applies to headers). -/
def lowerCode (n : ℕ) : ℕ := if 65 ≤ n ∧ n ≤ 90 then n + 32 else n

/-- Whitespace as stripped by `str.strip`. -/
def isWsCode (n : ℕ) : Bool := decide (n = 32 ∨ n = 9 ∨ n = 10 ∨ n = 11 ∨ n = 12 ∨ n = 13)

/-- Drop leading whitespace. -/
def trimLeft (s : List ℕ) : List ℕ := s.dropWhile isWsCode

/-- Drop trailing whitespace. -/
def trimRight (s : List ℕ) : List ℕ := (s.reverse.dropWhile isWsCode).reverse

/-- `str.strip`: drop whitespace from both ends. -/
def trimCodes (s : List ℕ) : List ℕ := trimRight (trimLeft s)

/-- `df.columns.str.lower().str.strip()` applied to one column name. -/
def normName (s : List ℕ) : List ℕ := trimCodes (s.map lowerCode)

/-- A decimal-digit code point (matched by the regex `\d`). -/
def isDigitCode (n : ℕ) : Bool := decide (48 ≤ n ∧ n ≤ 57)

/-- A code point kept by `str.replace('[^\d.-]', '', regex=True)`. -/
def keepCode (n : ℕ) : Bool := isDigitCode n || decide (n = 46) || decide (n = 45)

/-- The regex replacement: delete every character that is not a digit, a dot
or a minus sign. -/
def stripNonNumeric (s : List ℕ) : List ℕ := s.filter keepCode

/-- Split a candidate number at its decimal point: `none` when more than one
dot occurs (the parse then fails), otherwise the digit strings left and right
of the dot (right part empty when there is no dot). -/
def splitDot : List ℕ → Option (List ℕ × List ℕ)
  | [] => some ([], [])
  | c :: t =>
    if c = 46 then (if t.any (fun d => decide (d = 46)) then none else some ([], t))
    else
      match splitDot t with
      | some (ip, fp) => some (c :: ip, fp)
      | none => none

/-- Value of a big-endian digit list. -/
def valBE (l : List ℕ) : ℕ := Nat.ofDigits 10 l.reverse

/-- Parse an unsigned decimal literal: no minus sign inside, at most one dot,
only digits otherwise, and at least one digit (Python accepts `5.` and `.5`
but rejects `.` and the empty string). Returns the digits' value and the
number of fractional digits. -/
def parseUnsigned (cs : List ℕ) : Option (ℕ × ℕ) :=
  if cs.any (fun d => decide (d = 45)) then none
  else
    match splitDot cs with
    | none => none
    | some (ip, fp) =>
      if ip.all isDigitCode && fp.all isDigitCode && decide (0 < ip.length + fp.length) then
        some (valBE ((ip ++ fp).map (fun c => c - 48)), fp.length)
      else none

/-- Drop trailing fractional zero digits: a float value does not remember
them, so the parsed representative is kept canonical. -/
def canon : ℤ → ℕ → ℤ × ℕ
  | m, 0 => (m, 0)
  | m, e + 1 => if m % 10 = 0 then canon (m / 10) e else (m, e + 1)

/-- `pd.to_numeric(..., errors='coerce')` on one already-stripped string:
optional leading minus, then an unsigned decimal literal; `none` is NaN. -/
def parseDec (s : List ℕ) : Option (ℤ × ℕ) :=
  match s with
  | [] => none
  | c :: t =>
    if c = 45 then
      (parseUnsigned t).map (fun p => canon (-(p.1 : ℤ)) p.2)
    else
      (parseUnsigned (c :: t)).map (fun p => canon (p.1 : ℤ) p.2)

/-- Big-endian decimal digits, fuel-bounded so the definition is structural
(one unit of fuel per extracted digit; `n` itself is always enough fuel). -/
def digitsBEAux : ℕ → ℕ → List ℕ
  | _, 0 => []
  | 0, _ + 1 => []
  | fuel + 1, n + 1 => digitsBEAux fuel ((n + 1) / 10) ++ [(n + 1) % 10]

/-- Big-endian decimal digits of a natural number (empty for 0). -/
def digitsBE (n : ℕ) : List ℕ := digitsBEAux n n

/-- Big-endian digits of `n`, left-padded with zeros to length at least `len`. -/
def padDigits (n len : ℕ) : List ℕ :=
  List.replicate (len - (digitsBE n).length) 0 ++ digitsBE n

/-- The integer-part and fractional-part digit lists of the decimal rendering
of `m / 10^e`: for `e = 0` the fractional part is the single forced zero of
`str(float)` (`123.0`), otherwise exactly the `e` stored fractional digits. -/
def renderParts (m : ℤ) (e : ℕ) : List ℕ × List ℕ :=
  if e = 0 then (padDigits m.natAbs 1, [0])
  else
    ((padDigits m.natAbs (e + 1)).take ((padDigits m.natAbs (e + 1)).length - e),
     (padDigits m.natAbs (e + 1)).drop ((padDigits m.natAbs (e + 1)).length - e))

/-- Positional `str(float)` for an exact decimal value: optional minus,
integer digits, dot, fractional digits. -/
def renderDecPlain (m : ℤ) (e : ℕ) : List ℕ :=
  (if m < 0 then [45] else [])
    ++ (renderParts m e).1.map (fun d => d + 48)
    ++ 46 :: (renderParts m e).2.map (fun d => d + 48)

/-- CPython prints a float in positional notation exactly when it is zero or
its magnitude lies in [1e-4, 1e16); for the value m / 10^e this reads
10^e ≤ |m|·10^4 and |m| < 10^(e+16). -/
def plainRange (m : ℤ) (e : ℕ) : Prop :=
  m = 0 ∨ (10 ^ e ≤ m.natAbs * 10 ^ 4 ∧ m.natAbs < 10 ^ (e + 16))

instance plainRange_dec (m : ℤ) (e : ℕ) : Decidable (plainRange m e) := by
  unfold plainRange
  infer_instance

/-- Drop trailing zero digits of a big-endian digit list (the significant
digits of an integer mantissa). -/
def stripTrailingZeros (l : List ℕ) : List ℕ :=
  (l.reverse.dropWhile (fun d => decide (d = 0))).reverse

/-- Scientific `str(float)` for an exact decimal value, as CPython renders it
outside the positional regime: significant digits with a dot after the first
(omitted when there is only one), the letter e, an always-present exponent
sign, and the exponent zero-padded to at least two digits — so 2·10^16 prints
as 2e+16 and 5/10^5 prints as 5e-05. -/
def renderSci (m : ℤ) (e : ℕ) : List ℕ :=
  (if m < 0 then [45] else [])
    ++ (match stripTrailingZeros (digitsBE m.natAbs) with
        | [] => [48]
        | d :: rest =>
          (d + 48) :: (if rest = [] then [] else 46 :: rest.map (fun x => x + 48)))
    ++ 101 :: (if ((digitsBE m.natAbs).length : ℤ) - 1 - e < 0 then [45] else [43])
    ++ (padDigits (((digitsBE m.natAbs).length : ℤ) - 1 - e).natAbs 2).map (fun d => d + 48)

/-- `str(float)` for an exact decimal value: positional inside the plain
regime, scientific outside it. -/
def renderDec (m : ℤ) (e : ℕ) : List ℕ :=
  if plainRange m e then renderDecPlain m e else renderSci m e

/-- One cell of the amount column: raw text, a parsed decimal, or NaN. -/
inductive Cell where
  | str : List ℕ → Cell
  | num : ℤ → ℕ → Cell
  | nan : Cell
deriving DecidableEq

/-- `astype(str)` of one cell (`str(nan)` is the text nan). -/
def cellStr : Cell → List ℕ
  | Cell.str s => s
  | Cell.num m e => renderDec m e
  | Cell.nan => [110, 97, 110]

/-- The amount coercion
`pd.to_numeric(col.astype(str).str.replace('[^\d.-]', '', regex=True), errors='coerce')`
on one cell. -/
def coerceCell (c : Cell) : Cell :=
  match parseDec (stripNonNumeric (cellStr c)) with
  | some (m, e) => Cell.num m e
  | none => Cell.nan

/-- A raw table: named columns in order, each a list of cells. -/
abbrev Table := List (List ℕ × List Cell)

/-- The code points of the column name amount. -/
def amountName : List ℕ := [97, 109, 111, 117, 110, 116]

/-- `df.columns = df.columns.str.lower().str.strip()`: rename every column. -/
def normCols (t : Table) : Table := t.map (fun nc => (normName nc.1, nc.2))

/-- `df['amount'] = pd.to_numeric(...)`: coerce the cells of the column (or
columns) named amount, leaving every other column untouched. -/
def coerceAmountCols (t : Table) : Table :=
  t.map (fun nc => if nc.1 = amountName then (nc.1, nc.2.map coerceCell) else nc)

/-- Lines 72-77 for one dataframe: lower-case and strip every column name,
then coerce the amount column; accessing a missing amount column raises
(`KeyError`), modelled by `none`. -/
def normalizeTable (t : Table) : Option Table :=
  if (normCols t).any (fun nc => decide (nc.1 = amountName)) then
    some (coerceAmountCols (normCols t))
  else none

/-- The numeric value carried by a normalized amount cell (`none` is NaN). -/
def cellAmount : Cell → Option ℚ
  | Cell.num m e => some ((m : ℚ) / 10 ^ e)
  | _ => none

/-- The rows of a normalized table as engine records: the amount column's
values, the row position standing for the rest of the row. -/
def tableToRecords (t : Table) : List Record :=
  match t.find? (fun nc => decide (nc.1 = amountName)) with
  | some nc => (nc.2.map cellAmount).enum.map (fun p => ⟨p.2, p.1⟩)
  | none => []

/-- The full run: normalize both uploads, then reconcile; a missing amount
column aborts the run with no result. -/
def reconcile_pipeline (ta tb : Table) : Option ReconResult :=
  match normalizeTable ta, normalizeTable tb with
  | some na, some nb =>
    some (reconcile_transactions (tableToRecords na) (tableToRecords nb))
  | _, _ => none

theorem normalizeTable_eq_none {t : Table}
    (h : (normCols t).any (fun nc => decide (nc.1 = amountName)) = false) :
    normalizeTable t = none := by
  unfold normalizeTable
  simp only [h]
  rfl

/-- C8: if a table has no amount column after field-name normalization, the
run produces no ReconciliationResult at all — whichever side the table is on,
the pipeline aborts with the fatal error (the `KeyError` the code raises when
indexing the missing column, which the spec calls SchemaError). -/
theorem c8_missing_amount_fatal (ta tb : Table)
    (h : (normCols ta).any (fun nc => decide (nc.1 = amountName)) = false) :
    reconcile_pipeline ta tb = none ∧ reconcile_pipeline tb ta = none := by
  have hn : normalizeTable ta = none := normalizeTable_eq_none h
  constructor
  · unfold reconcile_pipeline
    rw [hn]
  · unfold reconcile_pipeline
    rw [hn]
    cases normalizeTable tb <;> rfl

/-- C8 witness: a table whose only column is named p (code 112) has no amount
column, so the pipeline yields no result against any second table. -/
theorem c8_missing_amount_fatal_witness :
    reconcile_pipeline [([112], [])] [] = none
    ∧ reconcile_pipeline [] [([112], [])] = none :=
  c8_missing_amount_fatal [([112], [])] [] (by decide)

theorem lowerCode_idem (n : ℕ) : lowerCode (lowerCode n) = lowerCode n := by
  by_cases h : 65 ≤ n ∧ n ≤ 90
  · have h1 : lowerCode n = n + 32 := if_pos h
    rw [h1]
    unfold lowerCode
    rw [if_neg (by omega)]
  · have h1 : lowerCode n = n := if_neg h
    rw [h1, h1]

theorem dropWhile_self_idem (p : ℕ → Bool) (l : List ℕ) :
    List.dropWhile p (List.dropWhile p l) = List.dropWhile p l := by
  induction l with
  | nil => rfl
  | cons a l ih =>
    by_cases h : p a = true
    · have e1 : List.dropWhile p (a :: l) = List.dropWhile p l := by
        rw [List.dropWhile_cons, if_pos h]
      rw [e1, ih]
    · have e1 : List.dropWhile p (a :: l) = a :: l := by
        rw [List.dropWhile_cons, if_neg h]
      rw [e1, e1]

theorem dropWhile_prefix_eq_self (p : ℕ → Bool) (x y : List ℕ)
    (hx : List.dropWhile p x = x) (hpre : ∃ z, x = y ++ z) :
    List.dropWhile p y = y := by
  obtain ⟨z, hz⟩ := hpre
  cases y with
  | nil => rfl
  | cons a y2 =>
    have hpa : ¬ p a = true := by
      intro hpa
      have hlen : x.length ≤ (y2 ++ z).length := by
        conv_lhs => rw [← hx]
        rw [hz]
        have e1 : List.dropWhile p ((a :: y2) ++ z) = List.dropWhile p (y2 ++ z) := by
          rw [List.cons_append, List.dropWhile_cons, if_pos hpa]
        rw [e1]
        exact (List.dropWhile_sublist p).length_le
      rw [hz] at hlen
      simp at hlen
    rw [List.dropWhile_cons, if_neg hpa]

theorem trimRight_is_initial_seg (s : List ℕ) : ∃ z, s = trimRight s ++ z := by
  refine ⟨(s.reverse.takeWhile isWsCode).reverse, ?_⟩
  unfold trimRight
  rw [← List.reverse_append, List.takeWhile_append_dropWhile, List.reverse_reverse]

theorem trimLeft_idem (l : List ℕ) : trimLeft (trimLeft l) = trimLeft l :=
  dropWhile_self_idem isWsCode l

theorem trimRight_idem (l : List ℕ) : trimRight (trimRight l) = trimRight l := by
  unfold trimRight
  rw [List.reverse_reverse, dropWhile_self_idem]

theorem trimLeft_of_trimRight (x : List ℕ) (hx : trimLeft x = x) :
    trimLeft (trimRight x) = trimRight x :=
  dropWhile_prefix_eq_self isWsCode x (trimRight x) hx (trimRight_is_initial_seg x)

theorem trimCodes_idem (l : List ℕ) : trimCodes (trimCodes l) = trimCodes l := by
  unfold trimCodes
  rw [trimLeft_of_trimRight (trimLeft l) (trimLeft_idem l), trimRight_idem]

theorem mem_trimCodes {x : ℕ} {l : List ℕ} (h : x ∈ trimCodes l) : x ∈ l := by
  unfold trimCodes trimLeft trimRight at h
  rw [List.mem_reverse] at h
  have h2 := (List.dropWhile_sublist isWsCode).mem h
  rw [List.mem_reverse] at h2
  exact (List.dropWhile_sublist isWsCode).mem h2

theorem normName_idem (s : List ℕ) : normName (normName s) = normName s := by
  unfold normName
  have hmap : (trimCodes (s.map lowerCode)).map lowerCode = trimCodes (s.map lowerCode) := by
    rw [List.map_congr_left (fun x hx => ?_), List.map_id]
    obtain ⟨y, _, hy⟩ := List.mem_map.mp (mem_trimCodes hx)
    rw [← hy]
    exact lowerCode_idem y
  rw [hmap, trimCodes_idem]

theorem valBE_append (l1 l2 : List ℕ) :
    valBE (l1 ++ l2) = valBE l1 * 10 ^ l2.length + valBE l2 := by
  unfold valBE
  rw [List.reverse_append, Nat.ofDigits_append]
  simp only [List.length_reverse]
  ring

theorem valBE_nil : valBE [] = 0 := rfl

theorem ofDigits_replicate_zero (k : ℕ) : Nat.ofDigits 10 (List.replicate k 0) = 0 := by
  induction k with
  | zero => rfl
  | succ k ih =>
    rw [List.replicate_succ, Nat.ofDigits_cons, ih]

theorem valBE_replicate_append (k : ℕ) (l : List ℕ) :
    valBE (List.replicate k 0 ++ l) = valBE l := by
  rw [valBE_append]
  have h0 : valBE (List.replicate k 0) = 0 := by
    unfold valBE
    rw [List.reverse_replicate, ofDigits_replicate_zero]
  rw [h0]
  ring

theorem digitsBEAux_eq (fuel : ℕ) : ∀ n : ℕ, n ≤ fuel →
    digitsBEAux fuel n = (Nat.digits 10 n).reverse := by
  induction fuel with
  | zero =>
    intro n hn
    obtain rfl : n = 0 := by omega
    show ([] : List ℕ) = (Nat.digits 10 0).reverse
    rw [Nat.digits_zero]
    rfl
  | succ fuel ih =>
    intro n hn
    cases n with
    | zero =>
      show ([] : List ℕ) = (Nat.digits 10 0).reverse
      rw [Nat.digits_zero]
      rfl
    | succ n =>
      show digitsBEAux fuel ((n + 1) / 10) ++ [(n + 1) % 10]
        = (Nat.digits 10 (n + 1)).reverse
      have hdiv : (n + 1) / 10 < n + 1 := Nat.div_lt_self (by omega) (by omega)
      rw [ih ((n + 1) / 10) (by omega)]
      rw [Nat.digits_def' (by norm_num : (1:ℕ) < 10) (by omega : 0 < n + 1)]
      rw [List.reverse_cons]

theorem digitsBE_eq (n : ℕ) : digitsBE n = (Nat.digits 10 n).reverse :=
  digitsBEAux_eq n n (le_refl n)

theorem valBE_digitsBE (n : ℕ) : valBE (digitsBE n) = n := by
  rw [digitsBE_eq]
  unfold valBE
  rw [List.reverse_reverse, Nat.ofDigits_digits]

theorem valBE_padDigits (n len : ℕ) : valBE (padDigits n len) = n := by
  unfold padDigits
  rw [valBE_replicate_append, valBE_digitsBE]

theorem padDigits_lt (n len : ℕ) : ∀ d ∈ padDigits n len, d < 10 := by
  intro d hd
  unfold padDigits at hd
  rcases List.mem_append.mp hd with h | h
  · rw [List.eq_of_mem_replicate h]
    norm_num
  · rw [digitsBE_eq] at h
    rw [List.mem_reverse] at h
    exact Nat.digits_lt_base (by norm_num) h

theorem padDigits_length (n len : ℕ) : len ≤ (padDigits n len).length := by
  unfold padDigits
  rw [List.length_append, List.length_replicate]
  omega

theorem renderParts_lt (m : ℤ) (e : ℕ) :
    (∀ d ∈ (renderParts m e).1, d < 10) ∧ ∀ d ∈ (renderParts m e).2, d < 10 := by
  unfold renderParts
  by_cases he : e = 0
  · rw [if_pos he]
    constructor
    · exact padDigits_lt m.natAbs 1
    · intro d hd
      rw [List.mem_singleton] at hd
      omega
  · rw [if_neg he]
    constructor
    · intro d hd
      exact padDigits_lt m.natAbs (e + 1) d (List.mem_of_mem_take hd)
    · intro d hd
      exact padDigits_lt m.natAbs (e + 1) d (List.mem_of_mem_drop hd)

theorem strip_renderDecPlain (m : ℤ) (e : ℕ) :
    stripNonNumeric (renderDecPlain m e) = renderDecPlain m e := by
  apply List.filter_eq_self.mpr
  intro c hc
  unfold renderDecPlain at hc
  have hdig : ∀ d < 10, keepCode (d + 48) = true := by
    intro d hd
    unfold keepCode isDigitCode
    have : (48 ≤ d + 48 ∧ d + 48 ≤ 57) := by omega
    simp [this]
  rcases List.mem_append.mp hc with h | h
  · rcases List.mem_append.mp h with h2 | h2
    · by_cases hm : m < 0
      · rw [if_pos hm, List.mem_singleton] at h2
        rw [h2]
        rfl
      · rw [if_neg hm] at h2
        simp at h2
    · obtain ⟨d, hd, hde⟩ := List.mem_map.mp h2
      rw [← hde]
      exact hdig d ((renderParts_lt m e).1 d hd)
  · rcases List.mem_cons.mp h with h2 | h2
    · rw [h2]
      rfl
    · obtain ⟨d, hd, hde⟩ := List.mem_map.mp h2
      rw [← hde]
      exact hdig d ((renderParts_lt m e).2 d hd)

theorem splitDot_append (ip fp : List ℕ) (hip : ∀ c ∈ ip, ¬ c = 46)
    (hfp : ∀ c ∈ fp, ¬ c = 46) :
    splitDot (ip ++ 46 :: fp) = some (ip, fp) := by
  induction ip with
  | nil =>
    rw [List.nil_append]
    unfold splitDot
    rw [if_pos rfl]
    have hany : fp.any (fun d => decide (d = 46)) = false := by
      rw [List.any_eq_false]
      intro x hx
      simp only [decide_eq_true_eq]
      exact hfp x hx
    rw [hany]
    rfl
  | cons a ip2 ih =>
    rw [List.cons_append]
    unfold splitDot
    rw [if_neg (hip a (List.mem_cons_self a ip2))]
    rw [ih (fun c hc => hip c (List.mem_cons_of_mem a hc))]

theorem digit_code_ne_45 {d : ℕ} (hd : d < 10) : ¬ d + 48 = 45 := by omega

theorem digit_code_ne_46 {d : ℕ} (hd : d < 10) : ¬ d + 48 = 46 := by omega

theorem map_sub48_add48 (l : List ℕ) : (l.map (fun d => d + 48)).map (fun c => c - 48) = l := by
  rw [List.map_map]
  have : ∀ a ∈ l, ((fun c => c - 48) ∘ fun d => d + 48) a = id a := by
    intro a _
    simp
  rw [List.map_congr_left this, List.map_id]

theorem parseUnsigned_render (ip fp : List ℕ) (hip : ∀ d ∈ ip, d < 10)
    (hfp : ∀ d ∈ fp, d < 10) (hne : 0 < ip.length + fp.length) :
    parseUnsigned (ip.map (fun d => d + 48) ++ 46 :: fp.map (fun d => d + 48))
      = some (valBE (ip ++ fp), fp.length) := by
  unfold parseUnsigned
  have hno45 : (ip.map (fun d => d + 48) ++ 46 :: fp.map (fun d => d + 48)).any
      (fun d => decide (d = 45)) = false := by
    rw [List.any_eq_false]
    intro x hx
    simp only [decide_eq_true_eq]
    rcases List.mem_append.mp hx with h | h
    · obtain ⟨d, hd, hde⟩ := List.mem_map.mp h
      rw [← hde]
      exact digit_code_ne_45 (hip d hd)
    · rcases List.mem_cons.mp h with h2 | h2
      · omega
      · obtain ⟨d, hd, hde⟩ := List.mem_map.mp h2
        rw [← hde]
        exact digit_code_ne_45 (hfp d hd)
  rw [hno45]
  simp only [Bool.false_eq_true, if_false]
  rw [splitDot_append (ip.map (fun d => d + 48)) (fp.map (fun d => d + 48))
    (fun c hc => by
      obtain ⟨d, hd, hde⟩ := List.mem_map.mp hc
      rw [← hde]
      exact digit_code_ne_46 (hip d hd))
    (fun c hc => by
      obtain ⟨d, hd, hde⟩ := List.mem_map.mp hc
      rw [← hde]
      exact digit_code_ne_46 (hfp d hd))]
  have hipd : (ip.map (fun d => d + 48)).all isDigitCode = true := by
    rw [List.all_eq_true]
    intro c hc
    obtain ⟨d, hd, hde⟩ := List.mem_map.mp hc
    have := hip d hd
    rw [← hde]
    unfold isDigitCode
    simp only [decide_eq_true_eq]
    omega
  have hfpd : (fp.map (fun d => d + 48)).all isDigitCode = true := by
    rw [List.all_eq_true]
    intro c hc
    obtain ⟨d, hd, hde⟩ := List.mem_map.mp hc
    have := hfp d hd
    rw [← hde]
    unfold isDigitCode
    simp only [decide_eq_true_eq]
    omega
  have hlen : decide (0 < (ip.map (fun d => d + 48)).length
      + (fp.map (fun d => d + 48)).length) = true := by
    simp only [List.length_map, decide_eq_true_eq]
    exact hne
  simp only [hipd, hfpd, hlen, Bool.and_self, if_true]
  rw [← List.map_append, map_sub48_add48, List.length_map]

theorem canon_zero_exp (m : ℤ) : canon m 0 = (m, 0) := rfl

theorem canon_mul10 (m : ℤ) : canon (10 * m) 1 = (m, 0) := by
  unfold canon
  rw [if_pos (Int.mul_emod_right 10 m), Int.mul_ediv_cancel_left m (by norm_num)]
  rfl

theorem canon_not_dvd (m : ℤ) (e : ℕ) (h : ¬ m % 10 = 0) : canon m (e + 1) = (m, e + 1) := by
  unfold canon
  rw [if_neg h]

theorem canon_shape (e : ℕ) : ∀ m : ℤ, (canon m e).2 = 0 ∨ ¬ (canon m e).1 % 10 = 0 := by
  induction e with
  | zero =>
    intro m
    left
    rfl
  | succ e ih =>
    intro m
    by_cases h : m % 10 = 0
    · unfold canon
      rw [if_pos h]
      exact ih (m / 10)
    · rw [canon_not_dvd m e h]
      right
      exact h

theorem parseDec_cons (c : ℕ) (t : List ℕ) :
    parseDec (c :: t)
      = if c = 45 then (parseUnsigned t).map (fun p => canon (-(p.1 : ℤ)) p.2)
        else (parseUnsigned (c :: t)).map (fun p => canon (p.1 : ℤ) p.2) := rfl

theorem parseDec_canon {s : List ℕ} {m : ℤ} {e : ℕ} (h : parseDec s = some (m, e)) :
    e = 0 ∨ ¬ m % 10 = 0 := by
  cases s with
  | nil => exact absurd h (by simp [parseDec])
  | cons c t =>
    simp only [parseDec] at h
    by_cases hc : c = 45
    · rw [if_pos hc] at h
      cases hp : parseUnsigned t with
      | none =>
        rw [hp] at h
        simp at h
      | some p =>
        rw [hp] at h
        simp only [Option.map_some'] at h
        have hpe : canon (-(p.1 : ℤ)) p.2 = (m, e) := by
          injection h
        have hshape := canon_shape p.2 (-(p.1 : ℤ))
        rw [hpe] at hshape
        exact hshape
    · rw [if_neg hc] at h
      cases hp : parseUnsigned (c :: t) with
      | none =>
        rw [hp] at h
        simp at h
      | some p =>
        rw [hp] at h
        simp only [Option.map_some'] at h
        have hpe : canon (p.1 : ℤ) p.2 = (m, e) := by
          injection h
        have hshape := canon_shape p.2 (p.1 : ℤ)
        rw [hpe] at hshape
        exact hshape

theorem parseDec_renderDecPlain (m : ℤ) (e : ℕ) (hc : e = 0 ∨ ¬ m % 10 = 0) :
    parseDec (stripNonNumeric (renderDecPlain m e)) = some (m, e) := by
  rw [strip_renderDecPlain]
  have hd1 := (renderParts_lt m e).1
  have hd2 := (renderParts_lt m e).2
  have hip_pos : 0 < (renderParts m e).1.length := by
    unfold renderParts
    by_cases he : e = 0
    · rw [if_pos he]
      have := padDigits_length m.natAbs 1
      simp only
      omega
    · rw [if_neg he]
      simp only [List.length_take]
      have := padDigits_length m.natAbs (e + 1)
      omega
  have hpu : parseUnsigned ((renderParts m e).1.map (fun d => d + 48)
      ++ 46 :: (renderParts m e).2.map (fun d => d + 48))
      = some (valBE ((renderParts m e).1 ++ (renderParts m e).2),
          (renderParts m e).2.length) :=
    parseUnsigned_render _ _ hd1 hd2 (by omega)
  have hval : valBE ((renderParts m e).1 ++ (renderParts m e).2)
      = if e = 0 then 10 * m.natAbs else m.natAbs := by
    by_cases he : e = 0
    · subst he
      rw [if_pos rfl]
      unfold renderParts
      rw [if_pos rfl]
      simp only
      rw [valBE_append, valBE_padDigits]
      have h0 : valBE [0] = 0 := rfl
      rw [h0]
      simp only [List.length_singleton]
      ring
    · rw [if_neg he]
      unfold renderParts
      rw [if_neg he]
      simp only
      rw [List.take_append_drop, valBE_padDigits]
  have hlen2 : (renderParts m e).2.length = if e = 0 then 1 else e := by
    by_cases he : e = 0
    · subst he
      rw [if_pos rfl]
      unfold renderParts
      rw [if_pos rfl]
      rfl
    · rw [if_neg he]
      unfold renderParts
      rw [if_neg he]
      simp only [List.length_drop]
      have := padDigits_length m.natAbs (e + 1)
      omega
  unfold renderDecPlain
  by_cases hm : m < 0
  · rw [if_pos hm, List.singleton_append, List.cons_append, parseDec_cons]
    rw [if_pos rfl, hpu, hval, hlen2]
    simp only [Option.map_some']
    by_cases he : e = 0
    · subst he
      rw [if_pos rfl, if_pos rfl]
      have hcast : (-(((10 * m.natAbs : ℕ) : ℤ))) = 10 * m := by
        push_cast [Int.ofNat_natAbs_of_nonpos (le_of_lt hm)]
        ring
      rw [hcast, canon_mul10]
    · rcases hc with h0 | hdvd
      · exact absurd h0 he
      rw [if_neg he, if_neg he]
      have hcast : (-((m.natAbs : ℕ) : ℤ)) = m := by
        rw [Int.ofNat_natAbs_of_nonpos (le_of_lt hm)]
        ring
      obtain ⟨e2, rfl⟩ : ∃ e2, e = e2 + 1 := ⟨e - 1, by omega⟩
      rw [hcast, canon_not_dvd m e2 hdvd]
  · rw [if_neg hm, List.nil_append]
    obtain ⟨d, ip2, hip⟩ : ∃ d t, (renderParts m e).1 = d :: t := by
      cases hi : (renderParts m e).1 with
      | nil =>
        rw [hi] at hip_pos
        simp at hip_pos
      | cons d t => exact ⟨d, t, rfl⟩
    have hd10 : d < 10 := hd1 d (by rw [hip]; exact List.mem_cons_self d ip2)
    have hpu2 := hpu
    rw [hip, List.map_cons, List.cons_append] at hpu2
    rw [hip, List.map_cons, List.cons_append, parseDec_cons]
    rw [if_neg (digit_code_ne_45 hd10), hpu2]
    rw [← hip, hval, hlen2]
    simp only [Option.map_some']
    have hnn : ((m.natAbs : ℕ) : ℤ) = m := Int.natAbs_of_nonneg (not_lt.mp hm)
    by_cases he : e = 0
    · subst he
      rw [if_pos rfl, if_pos rfl]
      have hcast : (((10 * m.natAbs : ℕ) : ℤ)) = 10 * m := by
        push_cast [hnn]
        ring
      rw [hcast, canon_mul10]
    · rcases hc with h0 | hdvd
      · exact absurd h0 he
      rw [if_neg he, if_neg he]
      obtain ⟨e2, rfl⟩ : ∃ e2, e = e2 + 1 := ⟨e - 1, by omega⟩
      rw [hnn, canon_not_dvd m e2 hdvd]

theorem coerceCell_nan : coerceCell Cell.nan = Cell.nan := rfl

/-- Whether a normalized amount cell prints in positional notation: numbers
in the plain regime qualify; text and NaN cells trivially do (their
`astype(str)` has no exponent letter). -/
def plainCell : Cell → Prop
  | Cell.num m e => plainRange m e
  | _ => True

instance plainCell_dec : (c : Cell) → Decidable (plainCell c)
  | Cell.str _ => inferInstanceAs (Decidable True)
  | Cell.num m e => inferInstanceAs (Decidable (plainRange m e))
  | Cell.nan => inferInstanceAs (Decidable True)

/-- The amount coercion is idempotent exactly on cells whose coerced value
prints positionally: the rendering then survives strip-and-reparse. -/
theorem coerceCell_idem_plain (c : Cell) (hpl : plainCell (coerceCell c)) :
    coerceCell (coerceCell c) = coerceCell c := by
  cases hp : parseDec (stripNonNumeric (cellStr c)) with
  | none =>
    have e1 : coerceCell c = Cell.nan := by
      unfold coerceCell
      rw [hp]
    rw [e1, coerceCell_nan]
  | some p =>
    obtain ⟨m, e⟩ := p
    have e1 : coerceCell c = Cell.num m e := by
      unfold coerceCell
      rw [hp]
    have hcanon := parseDec_canon hp
    rw [e1] at hpl
    have hpr : plainRange m e := hpl
    have e2 : coerceCell (Cell.num m e) = Cell.num m e := by
      unfold coerceCell
      have hcs : cellStr (Cell.num m e) = renderDec m e := rfl
      have hrd : renderDec m e = renderDecPlain m e := by
        unfold renderDec
        rw [if_pos hpr]
      rw [hcs, hrd, parseDec_renderDecPlain m e hcanon]
    rw [e1, e2]

/-- C7 (amended): normalization is idempotent on every normalized table whose
amount cells print in positional notation, that is value zero or magnitude in
[1e-4, 1e16); outside that regime `str(float)` switches to scientific
notation and the strip-and-reparse of a second pass corrupts the cell. -/
theorem c7_normalize_idem_plain (t u : Table) (h : normalizeTable t = some u)
    (hplain : ∀ nc ∈ u, nc.1 = amountName → ∀ cl ∈ nc.2, plainCell cl) :
    normalizeTable u = some u := by
  unfold normalizeTable at h
  by_cases hany : (normCols t).any (fun nc => decide (nc.1 = amountName)) = true
  · rw [if_pos hany] at h
    injection h with hu
    have humem : ∀ nc ∈ u, normName nc.1 = nc.1
        ∧ (nc.1 = amountName → nc.2.map coerceCell = nc.2) := by
      intro nc hnc
      have hncu := hnc
      rw [← hu] at hnc
      unfold coerceAmountCols at hnc
      obtain ⟨nc2, hnc2, hfe⟩ := List.mem_map.mp hnc
      unfold normCols at hnc2
      obtain ⟨nc0, hnc0, hne⟩ := List.mem_map.mp hnc2
      have hname2 : nc2.1 = normName nc0.1 := by rw [← hne]
      by_cases hn2 : nc2.1 = amountName
      · rw [if_pos hn2] at hfe
        have h1 : nc.1 = nc2.1 := by rw [← hfe]
        have h2 : nc.2 = nc2.2.map coerceCell := by rw [← hfe]
        constructor
        · rw [h1, hname2, normName_idem]
        · intro hna
          rw [h2, List.map_map]
          apply List.map_congr_left
          intro cl hcl
          simp only [Function.comp_apply]
          apply coerceCell_idem_plain
          have hmem2 : coerceCell cl ∈ nc.2 := by
            rw [h2]
            exact List.mem_map_of_mem _ hcl
          exact hplain nc hncu hna (coerceCell cl) hmem2
      · rw [if_neg hn2] at hfe
        have h1 : nc.1 = nc2.1 := by rw [← hfe]
        constructor
        · rw [h1, hname2, normName_idem]
        · intro hna
          rw [h1] at hna
          exact absurd hna hn2
    have hnormu : normCols u = u := by
      unfold normCols
      have hpt : ∀ nc ∈ u, (normName nc.1, nc.2) = nc := by
        intro nc hnc
        rw [(humem nc hnc).1]
      rw [List.map_congr_left hpt]
      exact List.map_id' u
    have hcoerceu : coerceAmountCols u = u := by
      unfold coerceAmountCols
      have hpt : ∀ nc ∈ u,
          (if nc.1 = amountName then (nc.1, nc.2.map coerceCell) else nc) = nc := by
        intro nc hnc
        by_cases hn : nc.1 = amountName
        · rw [if_pos hn, (humem nc hnc).2 hn]
        · rw [if_neg hn]
      rw [List.map_congr_left hpt]
      exact List.map_id' u
    have hanyu : (normCols u).any (fun nc => decide (nc.1 = amountName)) = true := by
      rw [hnormu]
      obtain ⟨nc0, hnc0, hp⟩ := List.any_eq_true.mp hany
      have hname0 : nc0.1 = amountName := of_decide_eq_true hp
      apply List.any_eq_true.mpr
      refine ⟨(if nc0.1 = amountName then (nc0.1, nc0.2.map coerceCell) else nc0), ?_, ?_⟩
      · rw [← hu]
        unfold coerceAmountCols
        exact List.mem_map_of_mem _ hnc0
      · rw [if_pos hname0]
        exact decide_eq_true hname0
    unfold normalizeTable
    rw [if_pos hanyu, hnormu, hcoerceu]
  · rw [if_neg hany] at h
    exact absurd h (by simp)

/-- C7 witness: the raw one-column table AMOUNT-with-trailing-blank holding
the text 1.5 normalizes to the amount column holding the number 15/10, whose
magnitude is inside the positional regime, and that normalized table is a
fixed point. -/
theorem c7_normalize_idem_plain_witness :
    normalizeTable [(amountName, [Cell.num 15 1])]
      = some [(amountName, [Cell.num 15 1])] :=
  c7_normalize_idem_plain [([65, 77, 79, 85, 78, 84, 32], [Cell.str [49, 46, 53]])]
    [(amountName, [Cell.num 15 1])] (by decide) (by decide)

/-- The raw one-column table whose amount cell is the text 0.00005. -/
def tblSmallRaw : Table := [(amountName, [Cell.str [48, 46, 48, 48, 48, 48, 53]])]

/-- Its normalization: the cell parses to the number 5 / 10^5. -/
def tblSmallNorm : Table := [(amountName, [Cell.num 5 5])]

/-- C7 (counterexample): normalization of the already-normalized table
holding the amount 0.00005 is not a no-op: `str(float)` renders the value as
5e-05, the regex strips the exponent letter leaving 5-05, and the reparse
yields NaN, so the second pass changes the cell. -/
theorem c7_sci_rendering_not_idem :
    normalizeTable tblSmallRaw = some tblSmallNorm
    ∧ normalizeTable tblSmallNorm ≠ some tblSmallNorm := by
  constructor
  · decide
  · decide
